import Mathlib

/-!
Verification development for the cooperative task scheduler and the
incremental child-reconciliation engine of this repository.

Scheduler side: shallow embedding of the Scheduler module
(unstable_scheduleCallback, unstable_cancelCallback, advanceTimers,
workLoop).  The two task heaps live behind push, peek and pop from the
SchedulerMinHeap module, which is not part of the sources here; they are
modelled from the spec as an insertion-sorted list ordered by
(sortIndex, id), which realises the documented heap contract (peek and
pop return the minimum by (sortIndex, id), push inserts).

Reconciler side: shallow embedding of ChildReconciler from
ReactChildFiber.old.js: deleteChild, deleteRemainingChildren, placeChild,
updateSlot, updateElement, updateTextNode, createChild,
mapRemainingChildren, updateFromMap, reconcileChildrenArray and
reconcileSingleElement.  The old sibling linked list is represented as a
Lean list of old fibers (each node keeps its stored index field), the
produced sibling chain as a list of work-in-progress fibers, and the
parent effect list keeps the exact firstEffect, lastEffect and
nextEffect pointer structure of the source.
-/

/- ------------------------------------------------------------------ -/
/- Scheduler: tasks, callbacks and the two queues                      -/
/- ------------------------------------------------------------------ -/

/-- A scheduler callback.  In the source a callback is a function that
receives the didTimeout boolean and returns either another function (a
continuation) or a non-function value.  Callbacks are modelled as pure:
they do not touch the scheduler queues while running. -/
inductive Callback where
  | mk (f : Bool → Option Callback)

/-- Run a callback on the didTimeout flag, yielding the continuation
callback when the returned value is a function. -/
def Callback.run : Callback → Bool → Option Callback
  | .mk f, b => f b

/-- Modelled from the spec: the SchedulerPriorities module is not in the
sources; the spec only needs five distinct priority levels. -/
def ImmediatePriority : Nat := 1

/-- Modelled from the spec: see ImmediatePriority. -/
def UserBlockingPriority : Nat := 2

/-- Modelled from the spec: see ImmediatePriority. -/
def NormalPriority : Nat := 3

/-- Modelled from the spec: see ImmediatePriority. -/
def LowPriority : Nat := 4

/-- Modelled from the spec: see ImmediatePriority. -/
def IdlePriority : Nat := 5

/-- Max 31 bit integer, as in the source. -/
def maxSigned31BitInt : Int := 1073741823

/-- Times out immediately. -/
def IMMEDIATE_PRIORITY_TIMEOUT : Int := -1

/-- Eventually times out. -/
def USER_BLOCKING_PRIORITY_TIMEOUT : Int := 250

/-- Default timeout. -/
def NORMAL_PRIORITY_TIMEOUT : Int := 5000

/-- Low priority timeout. -/
def LOW_PRIORITY_TIMEOUT : Int := 10000

/-- Never times out. -/
def IDLE_PRIORITY_TIMEOUT : Int := maxSigned31BitInt

/-- A scheduler task, as built by unstable_scheduleCallback. -/
structure SchedTask where
  id : Nat
  callback : Option Callback
  priorityLevel : Nat
  startTime : Int
  expirationTime : Int
  sortIndex : Int

/-- Heap order: by sortIndex, ties broken by insertion id. -/
def taskBefore (a b : SchedTask) : Bool :=
  a.sortIndex < b.sortIndex || (a.sortIndex == b.sortIndex && a.id < b.id)

/-- Modelled from the spec: SchedulerMinHeap push.  The queue is kept as
a list sorted by (sortIndex, id); push inserts at the ordered position. -/
def push (t : SchedTask) : List SchedTask → List SchedTask
  | [] => [t]
  | h :: r => if taskBefore t h then t :: h :: r else h :: push t r

/-- Modelled from the spec: SchedulerMinHeap peek returns the minimum by
(sortIndex, id), or null on an empty heap. -/
def peek (q : List SchedTask) : Option SchedTask := q.head?

/-- Modelled from the spec: SchedulerMinHeap pop removes the minimum.
The model returns the remaining queue. -/
def pop (q : List SchedTask) : List SchedTask := q.tail

/-- The scheduler state that the claims observe: the ready queue
(taskQueue) and the delayed queue (timerQueue). -/
structure SchedState where
  taskQueue : List SchedTask
  timerQueue : List SchedTask

/-- Loop body of advanceTimers: while the delayed-queue root is
cancelled drop it; while it is due move it, keyed by its expiration
time, into the task queue; stop at the first pending timer. -/
def advanceTimersGo (currentTime : Int) : List SchedTask → List SchedTask → List SchedTask × List SchedTask
  | [], taskQueue => ([], taskQueue)
  | timer :: rest, taskQueue =>
    if timer.callback.isNone then
      advanceTimersGo currentTime rest taskQueue
    else if timer.startTime ≤ currentTime then
      advanceTimersGo currentTime rest (push { timer with sortIndex := timer.expirationTime } taskQueue)
    else
      (timer :: rest, taskQueue)

/-- advanceTimers from the source: promote due delayed tasks into the
ready queue. -/
def advanceTimers (currentTime : Int) (s : SchedState) : SchedState :=
  let p := advanceTimersGo currentTime s.timerQueue s.taskQueue
  { timerQueue := p.1, taskQueue := p.2 }

/-- The options argument of unstable_scheduleCallback, as the source
inspects it: not an object or null; an object whose delay field is not a
number; or an object with a numeric delay. -/
inductive ScheduleOptions where
  | noOptions
  | optionsNoDelay
  | optionsDelay (d : Int)
deriving DecidableEq

/-- The timeout switch of unstable_scheduleCallback, in source order:
Immediate, UserBlocking, Idle, Low, then Normal together with the
default branch. -/
def timeoutForPriority (priorityLevel : Nat) : Int :=
  if priorityLevel = ImmediatePriority then IMMEDIATE_PRIORITY_TIMEOUT
  else if priorityLevel = UserBlockingPriority then USER_BLOCKING_PRIORITY_TIMEOUT
  else if priorityLevel = IdlePriority then IDLE_PRIORITY_TIMEOUT
  else if priorityLevel = LowPriority then LOW_PRIORITY_TIMEOUT
  else NORMAL_PRIORITY_TIMEOUT

/-- unstable_scheduleCallback: computes startTime from the options,
expirationTime from the priority timeout, and routes the new task to the
delayed queue (sortIndex startTime) when startTime is in the future,
otherwise to the ready queue (sortIndex expirationTime).  The host
callback and host timeout requests are external side effects and are not
part of the queue model. -/
def unstable_scheduleCallback (priorityLevel : Nat) (callback : Callback)
    (options : ScheduleOptions) (currentTime : Int) (taskIdCounter : Nat)
    (s : SchedState) : SchedTask × SchedState :=
  let startTime : Int :=
    match options with
    | .optionsDelay d => if d > 0 then currentTime + d else currentTime
    | _ => currentTime
  let timeout := timeoutForPriority priorityLevel
  let expirationTime := startTime + timeout
  let newTask : SchedTask :=
    { id := taskIdCounter, callback := some callback, priorityLevel := priorityLevel,
      startTime := startTime, expirationTime := expirationTime, sortIndex := -1 }
  if startTime > currentTime then
    let t := { newTask with sortIndex := startTime }
    (t, { s with timerQueue := push t s.timerQueue })
  else
    let t := { newTask with sortIndex := expirationTime }
    (t, { s with taskQueue := push t s.taskQueue })

/-- Point update used by unstable_cancelCallback: nulling the callback
of the task object identified by taskId.  The heaps hold references to
the task object, so the update is visible at every queue entry with that
id. -/
def cancelTaskEntry (taskId : Nat) (t : SchedTask) : SchedTask :=
  if t.id = taskId then { t with callback := none } else t

/-- unstable_cancelCallback: sets task.callback to null and nothing
else; no heap entry is removed. -/
def unstable_cancelCallback (taskId : Nat) (s : SchedState) : SchedState :=
  { taskQueue := s.taskQueue.map (cancelTaskEntry taskId),
    timerQueue := s.timerQueue.map (cancelTaskEntry taskId) }

/-- What one iteration of the workLoop while-loop did. -/
inductive StepOutcome where
  | exhausted
  | yielded
  | ranCompleted (id : Nat) (didTimeout : Bool)
  | ranContinuation (id : Nat) (didTimeout : Bool)
  | poppedCancelled (id : Nat)
deriving DecidableEq

/-- The executed callback of a step, with the didTimeout argument it
received, when a callback was invoked. -/
def StepOutcome.invokedWith : StepOutcome → Option (Nat × Bool)
  | .ranCompleted i d => some (i, d)
  | .ranContinuation i d => some (i, d)
  | _ => none

/-- The id of the task whose callback a step invoked, if any. -/
def StepOutcome.invokedTask (o : StepOutcome) : Option Nat :=
  (o.invokedWith).map (·.1)

/-- Replace the root entry of the ready queue (the source mutates the
peeked task object in place). -/
def replaceHead (q : List SchedTask) (t : SchedTask) : List SchedTask :=
  match q with
  | [] => []
  | _ :: r => t :: r

/-- One iteration of the workLoop while-loop.  currentTime is the time
the iteration observes; timeAfterCallback is what getCurrentTime returns
after the callback runs; shouldYieldNow is what shouldYieldToHost would
return this iteration.  If the root task has not expired and there is no
time remaining, the loop breaks.  Otherwise, a function callback is
invoked with the didTimeout flag; a continuation is reinstalled as the
task callback (the task keeps its sortIndex and id, hence its heap
position); a non-function return pops the task (callbacks are pure in
the model, so the source guard that the task is still the queue root
always holds); a null callback means the task was cancelled and it is
popped without running anything.  After a callback runs, advanceTimers
is re-run at the post-callback time. -/
def workLoopStep (hasTimeRemaining shouldYieldNow : Bool)
    (currentTime timeAfterCallback : Int) (s : SchedState) :
    StepOutcome × SchedState :=
  match peek s.taskQueue with
  | none => (.exhausted, s)
  | some currentTask =>
    if currentTask.expirationTime > currentTime ∧
        (hasTimeRemaining = false ∨ shouldYieldNow = true) then
      (.yielded, s)
    else
      match currentTask.callback with
      | some cb =>
        let didUserCallbackTimeout : Bool := decide (currentTask.expirationTime ≤ currentTime)
        match cb.run didUserCallbackTimeout with
        | some continuationCallback =>
          let s₁ : SchedState :=
            { s with taskQueue := replaceHead s.taskQueue { currentTask with callback := some continuationCallback } }
          (.ranContinuation currentTask.id didUserCallbackTimeout, advanceTimers timeAfterCallback s₁)
        | none =>
          let s₁ : SchedState := { s with taskQueue := pop s.taskQueue }
          (.ranCompleted currentTask.id didUserCallbackTimeout, advanceTimers timeAfterCallback s₁)
      | none => (.poppedCancelled currentTask.id, { s with taskQueue := pop s.taskQueue })

/-- Host environment for a full workLoop run: the value shouldYieldToHost
and getCurrentTime would return at the n-th loop iteration. -/
structure HostEnv where
  yieldAt : Nat → Bool
  timeAt : Nat → Int

/-- Fuelled while-loop of workLoop, recording the outcome trace.  The
boolean result mirrors the source return value: whether ready work
remains when the loop stops. -/
def workLoopGo (env : HostEnv) (hasTimeRemaining : Bool) :
    Nat → Nat → Int → SchedState → SchedState × Bool × List StepOutcome
  | 0, _, _, s => (s, true, [])
  | fuel + 1, n, currentTime, s =>
    match workLoopStep hasTimeRemaining (env.yieldAt n) currentTime (env.timeAt n) s with
    | (.exhausted, s₂) => (s₂, false, [])
    | (.yielded, s₂) => (s₂, true, [])
    | (.ranCompleted i d, s₂) =>
      let r := workLoopGo env hasTimeRemaining fuel (n + 1) (env.timeAt n) s₂
      (r.1, r.2.1, .ranCompleted i d :: r.2.2)
    | (.ranContinuation i d, s₂) =>
      let r := workLoopGo env hasTimeRemaining fuel (n + 1) (env.timeAt n) s₂
      (r.1, r.2.1, .ranContinuation i d :: r.2.2)
    | (.poppedCancelled i, s₂) =>
      let r := workLoopGo env hasTimeRemaining fuel (n + 1) currentTime s₂
      (r.1, r.2.1, .poppedCancelled i :: r.2.2)

/-- workLoop from the source: advanceTimers once at the initial time,
then iterate the loop body. -/
def workLoop (env : HostEnv) (hasTimeRemaining : Bool) (initialTime : Int)
    (fuel : Nat) (s : SchedState) : SchedState × Bool × List StepOutcome :=
  workLoopGo env hasTimeRemaining fuel 0 initialTime (advanceTimers initialTime s)

/- ------------------------------------------------------------------ -/
/- Reconciler: fibers, the effect list and the diff engine             -/
/- ------------------------------------------------------------------ -/

/-- NoFlags fiber flag. -/
def NoFlags : Nat := 0

/-- Placement fiber flag. -/
def Placement : Nat := 2

/-- Deletion fiber flag. -/
def Deletion : Nat := 8

/-- Fiber work tag variants that the modelled child domain can produce:
text fibers, element fibers and fragment fibers. -/
inductive WorkTag where
  | hostText
  | hostComponent
  | fragment
deriving DecidableEq

/-- A node of the previous (current) sibling linked list, the inputs of
the diff.  The id stands for the object identity of the fiber; index is
the index field stored on the node; elementType is none for text and
fragment fibers. -/
structure OldFiber where
  id : Nat
  key : Option String
  elementType : Option String
  tag : WorkTag
  index : Nat
deriving DecidableEq

/-- A work-in-progress fiber produced by the diff.  alternate is the
previous-commit counterpart: some old fiber exactly when the node reuses
prior state, none for a freshly created node. -/
structure Fiber where
  key : Option String
  elementType : Option String
  tag : WorkTag
  index : Nat
  alternate : Option OldFiber
  flags : Nat
deriving DecidableEq

/-- The new children descriptions the claims exercise: a non-fragment
element descriptor with an identity key and a concrete type, a text
child (string or number), or a hole (null, undefined or boolean), which
produces no fiber.  Fragment, portal, lazy and iterable children are
outside the modelled domain. -/
inductive NewChild where
  | element (key : Option String) (ty : String)
  | text (s : String)
  | nullish
deriving DecidableEq

/-- The identity key of a new child description. -/
def childKey : NewChild → Option String
  | .element k _ => k
  | _ => none

/-- The parent effect list as the source maintains it: the
firstEffect and lastEffect pointers of the return fiber and the
nextEffect pointer of every fiber (by fiber id). -/
structure EffectList where
  firstEffect : Option Nat
  lastEffect : Option Nat
  nextEffect : Nat → Option Nat

/-- An empty effect list: the state of a return fiber when child
reconciliation begins. -/
def EffectList.empty : EffectList :=
  { firstEffect := none, lastEffect := none, nextEffect := fun _ => none }

/-- deleteChild: in tracking mode, append childToDelete to the return
fiber effect list in O(1) (link it behind lastEffect, or make it both
head and tail of an empty list), null its nextEffect, and set its flags
to Deletion.  In non-tracking mode a no-op.  In the model the Deletion
flag is exactly membership of the child id in the effect chain. -/
def deleteChild (shouldTrackSideEffects : Bool) (returnFiberEffects : EffectList)
    (childToDelete : OldFiber) : EffectList :=
  if !shouldTrackSideEffects then returnFiberEffects
  else
    match returnFiberEffects.lastEffect with
    | some lastId =>
      { firstEffect := returnFiberEffects.firstEffect,
        lastEffect := some childToDelete.id,
        nextEffect := fun i =>
          if i = childToDelete.id then none
          else if i = lastId then some childToDelete.id
          else returnFiberEffects.nextEffect i }
    | none =>
      { firstEffect := some childToDelete.id,
        lastEffect := some childToDelete.id,
        nextEffect := fun i =>
          if i = childToDelete.id then none
          else returnFiberEffects.nextEffect i }

/-- deleteRemainingChildren: mark the whole remaining sibling run as
deleted. -/
def deleteRemainingChildren (shouldTrackSideEffects : Bool)
    (returnFiberEffects : EffectList) (currentFirstChild : List OldFiber) : EffectList :=
  currentFirstChild.foldl (fun el c => deleteChild shouldTrackSideEffects el c) returnFiberEffects

/-- The nextEffect pointers form the given chain: consecutive entries
are linked and the last entry points at nothing. -/
def chainOk (next : Nat → Option Nat) : List Nat → Bool
  | [] => true
  | [a] => next a == none
  | a :: b :: rest => next a == some b && chainOk next (b :: rest)

/-- The effect list represents exactly the given sequence of fiber ids:
firstEffect is its head, lastEffect its last entry, and nextEffect
threads it in order. -/
def RepresentsB (el : EffectList) : List Nat → Bool
  | [] => el.firstEffect == none && el.lastEffect == none
  | a :: rest =>
      el.firstEffect == some a &&
      el.lastEffect == (a :: rest).getLast? &&
      chainOk el.nextEffect (a :: rest)

/-- createFiberFromElement: a fresh element fiber, no alternate. -/
def createFiberFromElement (key : Option String) (ty : String) : Fiber :=
  { key := key, elementType := some ty, tag := .hostComponent, index := 0,
    alternate := none, flags := NoFlags }

/-- createFiberFromText: a fresh text fiber, no alternate. -/
def createFiberFromText : Fiber :=
  { key := none, elementType := none, tag := .hostText, index := 0,
    alternate := none, flags := NoFlags }

/-- useFiber: clone an existing fiber through createWorkInProgress;
the clone keeps the key, type and tag, records the old fiber as its
alternate, starts with cleared flags, and has index reset to 0 and no
sibling. -/
def useFiber (fiber : OldFiber) : Fiber :=
  { key := fiber.key, elementType := fiber.elementType, tag := fiber.tag,
    index := 0, alternate := some fiber, flags := NoFlags }

/-- updateTextNode: reuse the current fiber only when it is a text
fiber, otherwise create a fresh text fiber. -/
def updateTextNode (current : Option OldFiber) : Fiber :=
  match current with
  | none => createFiberFromText
  | some c => if c.tag ≠ WorkTag.hostText then createFiberFromText else useFiber c

/-- updateElement: when the current fiber exists and its elementType
equals the element type, clone it; otherwise create a fresh fiber from
the element.  (The Block branch is feature-flagged off and the hot
reloading check is DEV-only.) -/
def updateElement (current : Option OldFiber) (key : Option String) (ty : String) : Fiber :=
  match current with
  | some c => if c.elementType = some ty then useFiber c else createFiberFromElement key ty
  | none => createFiberFromElement key ty

/-- createChild: build a fiber for a new child slot with no current
counterpart; holes produce null. -/
def createChild : NewChild → Option Fiber
  | .text _ => some createFiberFromText
  | .element k ty => some (createFiberFromElement k ty)
  | .nullish => none

/-- updateSlot: match the old fiber at a slot against the new child at
that slot.  Null means the keys did not match and the first diff pass
must stop; a fiber with an alternate is a reuse, one without is a fresh
node at a matching key. -/
def updateSlot (oldFiber : Option OldFiber) (newChild : NewChild) : Option Fiber :=
  let key := match oldFiber with | some o => o.key | none => none
  match newChild with
  | .text _ => if key ≠ none then none else some (updateTextNode oldFiber)
  | .element k ty => if k = key then some (updateElement oldFiber k ty) else none
  | .nullish => none

/-- The key type of the existing-children map: explicit string keys, or
the stored index for keyless old fibers. -/
inductive MapKey where
  | str (s : String)
  | idx (n : Nat)
deriving DecidableEq

/-- The map key under which mapRemainingChildren files an old fiber. -/
def oldFiberMapKey (o : OldFiber) : MapKey :=
  match o.key with
  | some k => .str k
  | none => .idx o.index

/-- JS Map.set: replace the value at an existing key in place, append a
new key at the end (insertion order is preserved). -/
def mapSet (m : List (MapKey × OldFiber)) (k : MapKey) (v : OldFiber) :
    List (MapKey × OldFiber) :=
  match m with
  | [] => [(k, v)]
  | (k₀, v₀) :: rest => if k₀ = k then (k, v) :: rest else (k₀, v₀) :: mapSet rest k v

/-- JS Map.get, as Option. -/
def mapGet (m : List (MapKey × OldFiber)) (k : MapKey) : Option OldFiber :=
  (m.find? (fun p => p.1 = k)).map (·.2)

/-- JS Map.delete: remove the entry at the key. -/
def mapDelete (m : List (MapKey × OldFiber)) (k : MapKey) : List (MapKey × OldFiber) :=
  match m with
  | [] => []
  | (k₀, v₀) :: rest => if k₀ = k then rest else (k₀, v₀) :: mapDelete rest k

/-- mapRemainingChildren: file every remaining old sibling under its
explicit key, or under its index when keyless. -/
def mapRemainingChildren (currentFirstChild : List OldFiber) : List (MapKey × OldFiber) :=
  currentFirstChild.foldl (fun m o => mapSet m (oldFiberMapKey o) o) []

/-- updateFromMap: look the new child up among the remaining old
children (text children by index, elements by explicit key or index)
and reuse or create accordingly; holes produce null. -/
def updateFromMap (existingChildren : List (MapKey × OldFiber)) (newIdx : Nat) :
    NewChild → Option Fiber
  | .text _ => some (updateTextNode (mapGet existingChildren (.idx newIdx)))
  | .element k ty =>
    let matchedFiber :=
      mapGet existingChildren (match k with | none => .idx newIdx | some kk => .str kk)
    some (updateElement matchedFiber k ty)
  | .nullish => none

/-- placeChild: assign the new index; in tracking mode compare the old
index of a reused fiber with lastPlacedIndex — smaller means the node
moves (tag Placement, keep lastPlacedIndex), otherwise it stays and
lastPlacedIndex becomes its old index; a fresh node (no alternate) is
always tagged Placement. -/
def placeChild (shouldTrackSideEffects : Bool) (newFiber : Fiber)
    (lastPlacedIndex newIndex : Nat) : Fiber × Nat :=
  let f := { newFiber with index := newIndex }
  if !shouldTrackSideEffects then (f, lastPlacedIndex)
  else
    match f.alternate with
    | some current =>
      if current.index < lastPlacedIndex then
        ({ f with flags := Placement }, lastPlacedIndex)
      else
        (f, current.index)
    | none => ({ f with flags := Placement }, lastPlacedIndex)

/-- Second part of the map pass of reconcileChildrenArray: scan the
remaining new children against the existing-children map, removing
reused entries from the map, then mark everything left in the map as
deleted. -/
def reconcileArrayMapGo (shouldTrackSideEffects : Bool) :
    List NewChild → List (MapKey × OldFiber) → EffectList → Nat → Nat →
    List Fiber × EffectList
  | [], existingChildren, el, _, _ =>
    if shouldTrackSideEffects then
      ([], existingChildren.foldl (fun e p => deleteChild shouldTrackSideEffects e p.2) el)
    else ([], el)
  | c :: newRest, existingChildren, el, newIdx, lastPlacedIndex =>
    match updateFromMap existingChildren newIdx c with
    | none => reconcileArrayMapGo shouldTrackSideEffects newRest existingChildren el (newIdx + 1) lastPlacedIndex
    | some newFiber =>
      let existingChildren₂ :=
        if shouldTrackSideEffects ∧ newFiber.alternate ≠ none then
          mapDelete existingChildren
            (match newFiber.key with | none => .idx newIdx | some k => .str k)
        else existingChildren
      let p := placeChild shouldTrackSideEffects newFiber lastPlacedIndex newIdx
      let r := reconcileArrayMapGo shouldTrackSideEffects newRest existingChildren₂ el (newIdx + 1) p.2
      (p.1 :: r.1, r.2)

/-- Map pass of reconcileChildrenArray: build the key map from the
remaining old siblings, then scan the remaining new children. -/
def reconcileArrayMap (shouldTrackSideEffects : Bool) (news : List NewChild)
    (olds : List OldFiber) (el : EffectList) (newIdx lastPlacedIndex : Nat) :
    List Fiber × EffectList :=
  reconcileArrayMapGo shouldTrackSideEffects news (mapRemainingChildren olds) el
    newIdx lastPlacedIndex

/-- Fast-path creation pass of reconcileChildrenArray, entered when the
old list is exhausted: every remaining new slot creates a fresh fiber
(holes create nothing). -/
def reconcileArrayCreate (shouldTrackSideEffects : Bool) :
    List NewChild → EffectList → Nat → Nat → List Fiber × EffectList
  | [], el, _, _ => ([], el)
  | c :: newRest, el, newIdx, lastPlacedIndex =>
    match createChild c with
    | none => reconcileArrayCreate shouldTrackSideEffects newRest el (newIdx + 1) lastPlacedIndex
    | some newFiber =>
      let p := placeChild shouldTrackSideEffects newFiber lastPlacedIndex newIdx
      let r := reconcileArrayCreate shouldTrackSideEffects newRest el (newIdx + 1) p.2
      (p.1 :: r.1, r.2)

/-- The body of reconcileChildrenArray.  First pass: walk the old
sibling chain and the new children in lock step through updateSlot,
deleting a matched-but-not-reused old fiber, until a slot fails to
match.  When the new children run out, delete the remaining old
siblings.  When the old chain runs out, create the remaining new
children.  Otherwise fall through to the map pass.  The stored index of
an old fiber can run ahead of the slot index (holes in the previous
render), in which case the slot is matched against null and the old
fiber is kept for the next slot. -/
def reconcileArrayGo (shouldTrackSideEffects : Bool) :
    List NewChild → List OldFiber → EffectList → Nat → Nat →
    List Fiber × EffectList
  | [], olds, el, _, _ =>
    ([], deleteRemainingChildren shouldTrackSideEffects el olds)
  | c :: newRest, [], el, newIdx, lastPlacedIndex =>
    reconcileArrayCreate shouldTrackSideEffects (c :: newRest) el newIdx lastPlacedIndex
  | c :: newRest, o :: oldRest, el, newIdx, lastPlacedIndex =>
    let oldFiber : Option OldFiber := if o.index > newIdx then none else some o
    match updateSlot oldFiber c with
    | none =>
      reconcileArrayMap shouldTrackSideEffects (c :: newRest) (o :: oldRest) el newIdx lastPlacedIndex
    | some newFiber =>
      let el₂ :=
        match oldFiber with
        | some od =>
          if newFiber.alternate = none then deleteChild shouldTrackSideEffects el od else el
        | none => el
      let nextOlds := if o.index > newIdx then o :: oldRest else oldRest
      let p := placeChild shouldTrackSideEffects newFiber lastPlacedIndex newIdx
      let r := reconcileArrayGo shouldTrackSideEffects newRest nextOlds el₂ (newIdx + 1) p.2
      (p.1 :: r.1, r.2)

/-- reconcileChildrenArray: diff the previous sibling linked list
against the new children array, returning the produced sibling chain
and the updated parent effect list. -/
def reconcileChildrenArray (shouldTrackSideEffects : Bool)
    (returnFiberEffects : EffectList) (currentFirstChild : List OldFiber)
    (newChildren : List NewChild) : List Fiber × EffectList :=
  reconcileArrayGo shouldTrackSideEffects newChildren currentFirstChild
    returnFiberEffects 0 0

/-- reconcileSingleElement: scan the old siblings in order.  A sibling
whose key differs is deleted and the scan moves on.  The first sibling
with an equal key decides: equal concrete type — delete the later
siblings and clone it; different type — delete it and all later
siblings and fall out to create a fresh fiber.  (Fragment elements are
outside the modelled child domain; a fragment-tagged old fiber has
elementType none and therefore takes the mismatch path, exactly as the
fragment case of the source switch does for a non-fragment element.
The Block case is feature-flagged off.) -/
def reconcileSingleElement (shouldTrackSideEffects : Bool)
    (returnFiberEffects : EffectList) (currentFirstChild : List OldFiber)
    (key : Option String) (ty : String) : Fiber × EffectList :=
  match currentFirstChild with
  | [] => (createFiberFromElement key ty, returnFiberEffects)
  | child :: rest =>
    if child.key = key then
      if child.elementType = some ty then
        (useFiber child, deleteRemainingChildren shouldTrackSideEffects returnFiberEffects rest)
      else
        (createFiberFromElement key ty,
         deleteRemainingChildren shouldTrackSideEffects returnFiberEffects (child :: rest))
    else
      reconcileSingleElement shouldTrackSideEffects
        (deleteChild shouldTrackSideEffects returnFiberEffects child) rest key ty

/- ------------------------------------------------------------------ -/
/- Concrete fixtures                                                   -/
/- ------------------------------------------------------------------ -/

/-- Old fiber with key a at index 0. -/
def oldA : OldFiber :=
  { id := 0, key := some "a", elementType := some "T", tag := .hostComponent, index := 0 }

/-- Old fiber with key b at index 1. -/
def oldB : OldFiber :=
  { id := 1, key := some "b", elementType := some "T", tag := .hostComponent, index := 1 }

/-- Old fiber with key c at index 2. -/
def oldC : OldFiber :=
  { id := 2, key := some "c", elementType := some "T", tag := .hostComponent, index := 2 }

/-- New children [c, a, b] with unchanged types. -/
def newChildrenCAB : List NewChild :=
  [.element (some "c") "T", .element (some "a") "T", .element (some "b") "T"]

/-- Tracking-mode reconciliation of previous [a, b, c] against new
[c, a, b]. -/
def reorderResult : List Fiber × EffectList :=
  reconcileChildrenArray true EffectList.empty [oldA, oldB, oldC] newChildrenCAB

/- ------------------------------------------------------------------ -/
/- Claim theorems                                                      -/
/- ------------------------------------------------------------------ -/

/-- Claim C1: in tracking mode placeChild sets newFiber.index to the new
index; a reused fiber whose old index is below lastPlacedIndex is tagged
Placement and lastPlacedIndex is returned unchanged; a reused fiber
whose old index is at least lastPlacedIndex is not tagged and its old
index is returned; a fresh fiber (no alternate) is tagged Placement and
lastPlacedIndex is returned unchanged. -/
theorem placeChild_tracking_spec (newFiber : Fiber) (lastPlacedIndex newIndex : Nat) :
    (placeChild true newFiber lastPlacedIndex newIndex).1.index = newIndex ∧
    (∀ cur, newFiber.alternate = some cur → cur.index < lastPlacedIndex →
      (placeChild true newFiber lastPlacedIndex newIndex).1.flags = Placement ∧
      (placeChild true newFiber lastPlacedIndex newIndex).2 = lastPlacedIndex) ∧
    (∀ cur, newFiber.alternate = some cur → lastPlacedIndex ≤ cur.index →
      (placeChild true newFiber lastPlacedIndex newIndex).1.flags = newFiber.flags ∧
      (placeChild true newFiber lastPlacedIndex newIndex).2 = cur.index) ∧
    (newFiber.alternate = none →
      (placeChild true newFiber lastPlacedIndex newIndex).1.flags = Placement ∧
      (placeChild true newFiber lastPlacedIndex newIndex).2 = lastPlacedIndex) := by
  refine ⟨?_, ?_, ?_, ?_⟩
  · cases h : newFiber.alternate with
    | none => simp [placeChild, h]
    | some cur => by_cases hlt : cur.index < lastPlacedIndex <;> simp [placeChild, h, hlt]
  · intro cur hc hlt
    simp [placeChild, hc, hlt]
  · intro cur hc hge
    have hnlt : ¬ cur.index < lastPlacedIndex := by omega
    simp [placeChild, hc, hnlt]
  · intro hn
    simp [placeChild, hn]

/-- Witness for C1: a fresh fiber at lastPlacedIndex 4, slot 7, and a
reused fiber with old index 1 against lastPlacedIndex 5. -/
theorem placeChild_tracking_spec_witness :
    ((placeChild true (createFiberFromElement (some "k") "T") 4 7).1.flags = Placement ∧
      (placeChild true (createFiberFromElement (some "k") "T") 4 7).2 = 4) ∧
    ((placeChild true (useFiber oldB) 5 0).1.flags = Placement ∧
      (placeChild true (useFiber oldB) 5 0).2 = 5) :=
  ⟨(placeChild_tracking_spec (createFiberFromElement (some "k") "T") 4 7).2.2.2 rfl,
   (placeChild_tracking_spec (useFiber oldB) 5 0).2.1 oldB rfl (by decide)⟩

/-- Counterexample for C2: reconciling previous [a, b, c] against new
[c, a, b] does not flag exactly one node as moved (two nodes receive the
Placement flag). -/
theorem reconcile_reorder_counterexample :
    (reorderResult.1.filter (fun f => f.flags = Placement)).length ≠ 1 := by
  decide

/-- Claim C2 (amended): reconciling previous [a, b, c] against new
[c, a, b] in tracking mode flags exactly two nodes as moved: c (old
index 2) is reused without a Placement flag, while a (old index 0) and
b (old index 1) are reused and flagged moved; no deletion is recorded. -/
theorem reconcile_reorder_two_moves :
    reorderResult.1.map (fun f => f.key) = [some "c", some "a", some "b"] ∧
    reorderResult.1.map (fun f => f.flags) = [NoFlags, Placement, Placement] ∧
    reorderResult.1.map (fun f => f.alternate) = [some oldC, some oldA, some oldB] ∧
    (reorderResult.1.filter (fun f => f.flags = Placement)).length = 2 ∧
    RepresentsB reorderResult.2 [] = true := by
  decide

/-- Claim C5: a scheduled task satisfies
expirationTime = startTime + timeout(P); the timeout table is
Immediate  -1, UserBlocking 250, Normal 5000, Low 10000,
Idle 1073741823, any unrecognized level Normal; and the timeouts are
strictly increasing across the five levels. -/
theorem scheduler_timeout_table :
    (∀ (p : Nat) (cb : Callback) (opts : ScheduleOptions) (ct : Int) (idc : Nat) (s : SchedState),
      (unstable_scheduleCallback p cb opts ct idc s).1.expirationTime =
        (unstable_scheduleCallback p cb opts ct idc s).1.startTime + timeoutForPriority p) ∧
    timeoutForPriority ImmediatePriority = -1 ∧
    timeoutForPriority UserBlockingPriority = 250 ∧
    timeoutForPriority NormalPriority = 5000 ∧
    timeoutForPriority LowPriority = 10000 ∧
    timeoutForPriority IdlePriority = 1073741823 ∧
    (∀ q : Nat, q ≠ ImmediatePriority → q ≠ UserBlockingPriority → q ≠ LowPriority →
      q ≠ IdlePriority → timeoutForPriority q = NORMAL_PRIORITY_TIMEOUT) ∧
    timeoutForPriority ImmediatePriority < timeoutForPriority UserBlockingPriority ∧
    timeoutForPriority UserBlockingPriority < timeoutForPriority NormalPriority ∧
    timeoutForPriority NormalPriority < timeoutForPriority LowPriority ∧
    timeoutForPriority LowPriority < timeoutForPriority IdlePriority := by
  refine ⟨?_, by decide, by decide, by decide, by decide, by decide, ?_, by decide, by decide, by decide, by decide⟩
  · intro p cb opts ct idc s
    unfold unstable_scheduleCallback
    cases opts
    all_goals dsimp only
    all_goals (repeat' split)
    all_goals rfl
  · intro q h1 h2 h3 h4
    simp [timeoutForPriority, h1, h2, h3, h4]

/-- Witness for C5: scheduling at Low priority with no options. -/
theorem scheduler_timeout_table_witness :
    (unstable_scheduleCallback LowPriority (Callback.mk fun _ => none) .noOptions 100 1
        { taskQueue := [], timerQueue := [] }).1.expirationTime =
      (unstable_scheduleCallback LowPriority (Callback.mk fun _ => none) .noOptions 100 1
        { taskQueue := [], timerQueue := [] }).1.startTime + timeoutForPriority LowPriority ∧
    timeoutForPriority 9 = NORMAL_PRIORITY_TIMEOUT :=
  ⟨scheduler_timeout_table.1 LowPriority (Callback.mk fun _ => none) .noOptions 100 1
      { taskQueue := [], timerQueue := [] },
   scheduler_timeout_table.2.2.2.2.2.2.1 9 (by decide) (by decide) (by decide) (by decide)⟩

/-- Claim C10: without an options object, with a non-numeric delay, or
with a delay of at most 0, startTime is the current time and the task
goes onto the ready queue with sortIndex = expirationTime, the delayed
queue untouched; only a numeric delay strictly above 0 produces a
delayed task, pushed onto the delayed queue with
sortIndex = startTime = currentTime + delay, the ready queue
untouched. -/
theorem scheduleCallback_delay_routing (p : Nat) (cb : Callback) (opts : ScheduleOptions)
    (ct : Int) (idc : Nat) (s : SchedState) :
    ((opts = .noOptions ∨ opts = .optionsNoDelay ∨ (∃ d, opts = .optionsDelay d ∧ d ≤ 0)) →
      (unstable_scheduleCallback p cb opts ct idc s).1.startTime = ct ∧
      (unstable_scheduleCallback p cb opts ct idc s).1.sortIndex =
        (unstable_scheduleCallback p cb opts ct idc s).1.expirationTime ∧
      (unstable_scheduleCallback p cb opts ct idc s).2.taskQueue =
        push (unstable_scheduleCallback p cb opts ct idc s).1 s.taskQueue ∧
      (unstable_scheduleCallback p cb opts ct idc s).2.timerQueue = s.timerQueue) ∧
    (∀ d, opts = .optionsDelay d → 0 < d →
      (unstable_scheduleCallback p cb opts ct idc s).1.startTime = ct + d ∧
      (unstable_scheduleCallback p cb opts ct idc s).1.sortIndex =
        (unstable_scheduleCallback p cb opts ct idc s).1.startTime ∧
      (unstable_scheduleCallback p cb opts ct idc s).2.timerQueue =
        push (unstable_scheduleCallback p cb opts ct idc s).1 s.timerQueue ∧
      (unstable_scheduleCallback p cb opts ct idc s).2.taskQueue = s.taskQueue) := by
  constructor
  · rintro (rfl | rfl | ⟨d, rfl, hd⟩)
    · simp [unstable_scheduleCallback]
    · simp [unstable_scheduleCallback]
    · have hngt : ¬ d > 0 := by omega
      simp [unstable_scheduleCallback, hngt]
  · rintro d rfl hd
    have hgt : ct + d > ct := by omega
    simp [unstable_scheduleCallback, hd, hgt]

/-- Witness for C10: a delay of 3 goes to the delayed queue; no options
goes to the ready queue. -/
theorem scheduleCallback_delay_routing_witness :
    ((unstable_scheduleCallback NormalPriority (Callback.mk fun _ => none) (.optionsDelay 3) 50 2
        { taskQueue := [], timerQueue := [] }).1.startTime = 50 + 3 ∧
      (unstable_scheduleCallback NormalPriority (Callback.mk fun _ => none) (.optionsDelay 3) 50 2
        { taskQueue := [], timerQueue := [] }).1.sortIndex =
        (unstable_scheduleCallback NormalPriority (Callback.mk fun _ => none) (.optionsDelay 3) 50 2
          { taskQueue := [], timerQueue := [] }).1.startTime ∧
      (unstable_scheduleCallback NormalPriority (Callback.mk fun _ => none) (.optionsDelay 3) 50 2
        { taskQueue := [], timerQueue := [] }).2.timerQueue =
        push (unstable_scheduleCallback NormalPriority (Callback.mk fun _ => none) (.optionsDelay 3) 50 2
          { taskQueue := [], timerQueue := [] }).1 [] ∧
      (unstable_scheduleCallback NormalPriority (Callback.mk fun _ => none) (.optionsDelay 3) 50 2
        { taskQueue := [], timerQueue := [] }).2.taskQueue = []) :=
  (scheduleCallback_delay_routing NormalPriority (Callback.mk fun _ => none) (.optionsDelay 3) 50 2
    { taskQueue := [], timerQueue := [] }).2 3 rfl (by decide)

/- ------------------------------------------------------------------ -/
/- Queue lemmas for the work-loop claims                               -/
/- ------------------------------------------------------------------ -/

/-- Membership through an ordered insert. -/
theorem mem_push {x t : SchedTask} : ∀ {q : List SchedTask}, x ∈ push t q ↔ x = t ∨ x ∈ q := by
  intro q
  induction q with
  | nil => simp [push]
  | cons h r ih =>
    simp only [push]
    split
    · simp [List.mem_cons]
    · simp [List.mem_cons, ih]
      tauto

/-- Ids through an ordered insert. -/
theorem mem_map_push {i : Nat} {t : SchedTask} {q : List SchedTask} :
    i ∈ (push t q).map SchedTask.id ↔ i = t.id ∨ i ∈ q.map SchedTask.id := by
  simp only [List.mem_map]
  constructor
  · rintro ⟨a, ha, rfl⟩
    rcases mem_push.mp ha with rfl | hq
    · exact Or.inl rfl
    · exact Or.inr ⟨a, hq, rfl⟩
  · rintro (rfl | ⟨a, ha, rfl⟩)
    · exact ⟨t, mem_push.mpr (Or.inl rfl), rfl⟩
    · exact ⟨a, mem_push.mpr (Or.inr ha), rfl⟩

/-- advanceTimers only adds tasks to the ready queue. -/
theorem advanceTimersGo_mem (ct : Int) (x : SchedTask) :
    ∀ (timers tq : List SchedTask), x ∈ tq → x ∈ (advanceTimersGo ct timers tq).2 := by
  intro timers
  induction timers with
  | nil => intro tq hx; simpa [advanceTimersGo] using hx
  | cons tm rest ih =>
    intro tq hx
    unfold advanceTimersGo
    split
    · exact ih tq hx
    · split
      · exact ih _ (mem_push.mpr (Or.inr hx))
      · simpa using hx

/-- Every id in the ready queue after advanceTimers comes from the
previous ready queue or from the delayed queue. -/
theorem advanceTimersGo_ids (ct : Int) (i : Nat) :
    ∀ (timers tq : List SchedTask),
      i ∈ ((advanceTimersGo ct timers tq).2).map SchedTask.id →
      i ∈ tq.map SchedTask.id ∨ i ∈ timers.map SchedTask.id := by
  intro timers
  induction timers with
  | nil => intro tq h; exact Or.inl (by simpa [advanceTimersGo] using h)
  | cons tm rest ih =>
    intro tq h
    unfold advanceTimersGo at h
    split at h
    · rcases ih tq h with h1 | h2
      · exact Or.inl h1
      · exact Or.inr (by simp [h2])
    · split at h
      · rcases ih _ h with h1 | h2
        · rcases mem_map_push.mp h1 with rfl | h3
          · exact Or.inr (by simp)
          · exact Or.inl h3
        · exact Or.inr (by simp [h2])
      · exact Or.inl (by simpa using h)

/- ------------------------------------------------------------------ -/
/- Work-loop claim theorems                                            -/
/- ------------------------------------------------------------------ -/

/-- A ready task with a callback that expired at time 10. -/
def taskExpired : SchedTask :=
  { id := 7, callback := some (Callback.mk fun _ => none), priorityLevel := NormalPriority,
    startTime := 0, expirationTime := 10, sortIndex := 10 }

/-- A scheduler state whose ready queue holds exactly taskExpired. -/
def stateOne : SchedState := { taskQueue := [taskExpired], timerQueue := [] }

/-- A cancelled ready task (null callback). -/
def taskCancelled : SchedTask :=
  { id := 7, callback := none, priorityLevel := NormalPriority,
    startTime := 0, expirationTime := 10, sortIndex := 10 }

/-- A scheduler state whose ready queue holds exactly taskCancelled. -/
def stateCancelled : SchedState := { taskQueue := [taskCancelled], timerQueue := [] }

/-- Claim C3: for every ready-queue state, an iteration of the work
loop invokes the callback of the minimum ready task whenever that task
has expired (expirationTime at most currentTime) for all values of
hasTimeRemaining and shouldYieldToHost; and when the minimum task has
not expired and there is no time remaining (hasTimeRemaining false or
shouldYieldToHost true), the loop stops without invoking anything and
without touching the queues. -/
theorem workLoop_expired_runs_yield_stops
    (hasTimeRemaining shouldYieldNow : Bool) (currentTime timeAfterCallback : Int)
    (s : SchedState) (t : SchedTask) (hpeek : peek s.taskQueue = some t) :
    (t.expirationTime ≤ currentTime → ∀ cb, t.callback = some cb →
      (workLoopStep hasTimeRemaining shouldYieldNow currentTime timeAfterCallback s).1.invokedTask
        = some t.id) ∧
    (t.expirationTime > currentTime → (hasTimeRemaining = false ∨ shouldYieldNow = true) →
      workLoopStep hasTimeRemaining shouldYieldNow currentTime timeAfterCallback s
        = (.yielded, s)) := by
  constructor
  · intro hexp cb hcb
    have hcond : ¬ (t.expirationTime > currentTime ∧
        (hasTimeRemaining = false ∨ shouldYieldNow = true)) := by
      intro h
      omega
    unfold workLoopStep
    rw [hpeek]
    dsimp only
    rw [if_neg hcond, hcb]
    dsimp only
    cases hrun : cb.run (decide (t.expirationTime ≤ currentTime)) with
    | none => simp [hrun, StepOutcome.invokedTask, StepOutcome.invokedWith]
    | some k => simp [hrun, StepOutcome.invokedTask, StepOutcome.invokedWith]
  · intro hexp hyield
    unfold workLoopStep
    rw [hpeek]
    dsimp only
    rw [if_pos ⟨hexp, hyield⟩]

/-- Witness for C3: a task expired at time 20 runs even with no time
remaining and the host asking to yield; the same task at time 5 with the
host asking to yield is not run and the state is untouched. -/
theorem workLoop_expired_runs_yield_stops_witness :
    (workLoopStep false true 20 21 stateOne).1.invokedTask = some 7 ∧
    workLoopStep true true 5 6 stateOne = (.yielded, stateOne) :=
  ⟨(workLoop_expired_runs_yield_stops false true 20 21 stateOne taskExpired rfl).1
      (by decide) (Callback.mk fun _ => none) rfl,
   (workLoop_expired_runs_yield_stops true true 5 6 stateOne taskExpired rfl).2
      (by decide) (Or.inr rfl)⟩

/-- Claim C4: an executed callback receives the boolean
expirationTime at most currentTime; a function (continuation) return
value is reinstalled as the task callback and the task stays in the
ready queue with its sortIndex unchanged; a non-function return pops
the task from the ready queue. -/
theorem workLoop_callback_contract
    (hasTR sy : Bool) (ct tac : Int) (s : SchedState) (t : SchedTask)
    (f : Bool → Option Callback)
    (hpeek : peek s.taskQueue = some t)
    (hcb : t.callback = some (Callback.mk f))
    (hcond : ¬ (t.expirationTime > ct ∧ (hasTR = false ∨ sy = true)))
    (hid1 : t.id ∉ (pop s.taskQueue).map SchedTask.id)
    (hid2 : t.id ∉ s.timerQueue.map SchedTask.id) :
    (workLoopStep hasTR sy ct tac s).1.invokedWith = some (t.id, decide (t.expirationTime ≤ ct)) ∧
    (∀ k, f (decide (t.expirationTime ≤ ct)) = some k →
      { t with callback := some k } ∈ (workLoopStep hasTR sy ct tac s).2.taskQueue) ∧
    (f (decide (t.expirationTime ≤ ct)) = none →
      t.id ∉ ((workLoopStep hasTR sy ct tac s).2.taskQueue).map SchedTask.id) := by
  have hq : s.taskQueue = t :: pop s.taskQueue := by
    cases hq₀ : s.taskQueue with
    | nil => rw [hq₀] at hpeek; simp [peek] at hpeek
    | cons t₀ rest =>
      rw [hq₀] at hpeek
      have : t₀ = t := by simpa [peek] using hpeek
      rw [this]
      simp [pop]
  refine ⟨?_, ?_, ?_⟩
  · unfold workLoopStep
    rw [hpeek]
    dsimp only
    rw [if_neg hcond, hcb]
    dsimp only [Callback.run]
    cases hrun : f (decide (t.expirationTime ≤ ct)) with
    | none => simp [hrun, StepOutcome.invokedWith]
    | some k => simp [hrun, StepOutcome.invokedWith]
  · intro k hk
    unfold workLoopStep
    rw [hpeek]
    dsimp only
    rw [if_neg hcond, hcb]
    dsimp only [Callback.run]
    rw [hk]
    dsimp only [advanceTimers]
    refine advanceTimersGo_mem tac _ s.timerQueue _ ?_
    rw [hq]
    simp [replaceHead]
  · intro hk
    unfold workLoopStep
    rw [hpeek]
    dsimp only
    rw [if_neg hcond, hcb]
    dsimp only [Callback.run]
    rw [hk]
    dsimp only [advanceTimers]
    intro hmem
    rcases advanceTimersGo_ids tac t.id s.timerQueue (pop s.taskQueue) hmem with h1 | h2
    · exact hid1 h1
    · exact hid2 h2

/-- Witness for C4: a completed callback pops its task; the didTimeout
argument records that the task had expired. -/
theorem workLoop_callback_contract_witness :
    (workLoopStep true false 20 21 stateOne).1.invokedWith
      = some (7, decide ((10 : Int) ≤ 20)) ∧
    ¬ (7 ∈ ((workLoopStep true false 20 21 stateOne).2.taskQueue).map SchedTask.id) :=
  ⟨(workLoop_callback_contract true false 20 21 stateOne taskExpired (fun _ => none)
      rfl rfl (by decide) (by decide) (by decide)).1,
   (workLoop_callback_contract true false 20 21 stateOne taskExpired (fun _ => none)
      rfl rfl (by decide) (by decide) (by decide)).2.2 rfl⟩

/-- Claim C6: unstable_cancelCallback only nulls the callback field —
every queue entry keeps its id, priority, times and sortIndex and no
entry is removed from either heap; cancelling a task present in neither
heap leaves the scheduler state unchanged; and when the work loop
reaches a ready root task whose callback is null, it pops it without
invoking any callback. -/
theorem cancelCallback_spec (taskId : Nat) (s : SchedState) :
    ((unstable_cancelCallback taskId s).taskQueue.map
        (fun t => (t.id, t.priorityLevel, t.startTime, t.expirationTime, t.sortIndex))
      = s.taskQueue.map
        (fun t => (t.id, t.priorityLevel, t.startTime, t.expirationTime, t.sortIndex)) ∧
     (unstable_cancelCallback taskId s).timerQueue.map
        (fun t => (t.id, t.priorityLevel, t.startTime, t.expirationTime, t.sortIndex))
      = s.timerQueue.map
        (fun t => (t.id, t.priorityLevel, t.startTime, t.expirationTime, t.sortIndex))) ∧
    ((∀ t ∈ s.taskQueue, t.id ≠ taskId) → (∀ t ∈ s.timerQueue, t.id ≠ taskId) →
      unstable_cancelCallback taskId s = s) ∧
    (∀ (hasTR sy : Bool) (ct tac : Int) (t : SchedTask),
      peek s.taskQueue = some t → t.callback = none →
      ¬ (t.expirationTime > ct ∧ (hasTR = false ∨ sy = true)) →
      workLoopStep hasTR sy ct tac s
        = (.poppedCancelled t.id, { s with taskQueue := pop s.taskQueue })) := by
  have hobs : ∀ t : SchedTask,
      (cancelTaskEntry taskId t).id = t.id ∧
      (cancelTaskEntry taskId t).priorityLevel = t.priorityLevel ∧
      (cancelTaskEntry taskId t).startTime = t.startTime ∧
      (cancelTaskEntry taskId t).expirationTime = t.expirationTime ∧
      (cancelTaskEntry taskId t).sortIndex = t.sortIndex := by
    intro t
    unfold cancelTaskEntry
    split <;> exact ⟨rfl, rfl, rfl, rfl, rfl⟩
  have hfix : ∀ (l : List SchedTask), (∀ t ∈ l, t.id ≠ taskId) →
      l.map (cancelTaskEntry taskId) = l := by
    intro l hl
    induction l with
    | nil => rfl
    | cons a r ih =>
      have ha : a.id ≠ taskId := hl a (by simp)
      simp only [List.map_cons]
      rw [ih (fun t ht => hl t (by simp [ht]))]
      simp [cancelTaskEntry, ha]
  refine ⟨⟨?_, ?_⟩, ?_, ?_⟩
  · simp only [unstable_cancelCallback, List.map_map, Function.comp_def]
    exact List.map_congr_left fun t _ => by
      rcases hobs t with ⟨h1, h2, h3, h4, h5⟩
      simp [h1, h2, h3, h4, h5]
  · simp only [unstable_cancelCallback, List.map_map, Function.comp_def]
    exact List.map_congr_left fun t _ => by
      rcases hobs t with ⟨h1, h2, h3, h4, h5⟩
      simp [h1, h2, h3, h4, h5]
  · intro h1 h2
    cases s with
    | mk tq tmq =>
      simp only [unstable_cancelCallback]
      rw [hfix tq (by simpa using h1), hfix tmq (by simpa using h2)]
  · intro hasTR sy ct tac t hpeek hcb hcond
    unfold workLoopStep
    rw [hpeek]
    dsimp only
    rw [if_neg hcond, hcb]

/-- Witness for C6: cancelling a task not in either queue is a no-op,
and the loop pops a reached cancelled root without invoking it. -/
theorem cancelCallback_spec_witness :
    unstable_cancelCallback 9 { taskQueue := [], timerQueue := [] }
      = { taskQueue := [], timerQueue := [] } ∧
    workLoopStep true false 20 21 stateCancelled
      = (.poppedCancelled 7, { taskQueue := [], timerQueue := [] }) :=
  ⟨(cancelCallback_spec 9 { taskQueue := [], timerQueue := [] }).2.1
      (by intro t ht; simp at ht) (by intro t ht; simp at ht),
   (cancelCallback_spec 7 stateCancelled).2.2 true false 20 21 taskCancelled
      rfl rfl (by decide)⟩

/- ------------------------------------------------------------------ -/
/- Effect-list lemmas and claim C8                                     -/
/- ------------------------------------------------------------------ -/

/-- The last entry of a chain is a member of it. -/
theorem getLast?_mem_nat : ∀ (L : List Nat) (x : Nat), L.getLast? = some x → x ∈ L := by
  intro L
  induction L with
  | nil => intro x h; simp at h
  | cons a r ih =>
    intro x h
    cases r with
    | nil =>
      simp only [List.getLast?_singleton, Option.some.injEq] at h
      simp [h]
    | cons b r2 =>
      rw [List.getLast?_cons_cons] at h
      exact List.mem_cons_of_mem a (ih x h)

/-- A non-empty chain has a last entry. -/
theorem getLast?_some_of_ne_nil : ∀ (L : List Nat), L ≠ [] → ∃ x, L.getLast? = some x := by
  intro L
  induction L with
  | nil => intro h; exact absurd rfl h
  | cons a r ih =>
    intro _
    cases r with
    | nil => exact ⟨a, by simp⟩
    | cons b r2 =>
      rcases ih (by simp) with ⟨x, hx⟩
      exact ⟨x, by rw [List.getLast?_cons_cons]; exact hx⟩

/-- Linking a fresh node behind the old tail extends a well-formed
nextEffect chain by that node. -/
theorem chainOk_append (next : Nat → Option Nat) (c l : Nat) :
    ∀ L, chainOk next L = true → L.getLast? = some l → L.Nodup → c ∉ L →
      chainOk (fun i => if i = c then none else if i = l then some c else next i)
        (L ++ [c]) = true := by
  intro L
  induction L with
  | nil => intro _ h; simp at h
  | cons a r ih =>
    intro hok hlast hnd hc
    cases r with
    | nil =>
      have ha : a = l := by simpa using hlast
      have hac : a ≠ c := by simp at hc; omega
      subst ha
      simp [chainOk, hac]
    | cons b r2 =>
      rw [List.getLast?_cons_cons] at hlast
      have hal : a ≠ l := by
        intro h
        subst h
        exact (List.nodup_cons.mp hnd).1 (getLast?_mem_nat _ _ hlast)
      have hac : a ≠ c := fun h => hc (h ▸ List.mem_cons_self a _)
      have hstep : chainOk next (b :: r2) = true ∧ next a = some b := by
        have := hok
        simp only [chainOk, Bool.and_eq_true, beq_iff_eq] at this
        exact ⟨this.2, this.1⟩
      have hrec := ih hstep.1 hlast (List.nodup_cons.mp hnd).2
        (fun h => hc (List.mem_cons_of_mem a h))
      simp only [List.cons_append, chainOk, Bool.and_eq_true, beq_iff_eq]
      refine ⟨?_, hrec⟩
      simp [hac, hal, hstep.2]

/-- deleteChild in tracking mode extends the represented effect
sequence by the deleted child. -/
theorem representsB_append (el : EffectList) (L : List Nat) (child : OldFiber)
    (h : RepresentsB el L = true) (hn : (L ++ [child.id]).Nodup) :
    RepresentsB (deleteChild true el child) (L ++ [child.id]) = true := by
  cases L with
  | nil =>
    simp only [RepresentsB, Bool.and_eq_true, beq_iff_eq] at h
    unfold deleteChild
    rw [h.2]
    simp [RepresentsB, chainOk]
  | cons a rest =>
    simp only [RepresentsB] at h
    rw [Bool.and_eq_true, Bool.and_eq_true] at h
    obtain ⟨⟨hf, hl⟩, hok⟩ := h
    rw [beq_iff_eq] at hf hl
    rcases getLast?_some_of_ne_nil (a :: rest) (by simp) with ⟨l, hgl⟩
    rw [List.nodup_append] at hn
    obtain ⟨hnd, _, hdisj⟩ := hn
    have hcnot : child.id ∉ a :: rest := fun hmem => hdisj hmem (by simp)
    unfold deleteChild
    rw [hl, hgl]
    simp only [Bool.not_true, Bool.false_eq_true, if_false]
    simp only [RepresentsB, List.cons_append]
    rw [Bool.and_eq_true, Bool.and_eq_true]
    refine ⟨⟨?_, ?_⟩, ?_⟩
    · rw [beq_iff_eq]
      exact hf
    · rw [beq_iff_eq, ← List.cons_append, List.getLast?_concat]
    · have := chainOk_append el.nextEffect child.id l (a :: rest) hok hgl hnd hcnot
      simpa using this

/-- deleteRemainingChildren in tracking mode appends every remaining
sibling, in order, to the represented effect sequence. -/
theorem representsB_deleteRemaining :
    ∀ (os : List OldFiber) (el : EffectList) (L : List Nat),
      RepresentsB el L = true → (L ++ os.map OldFiber.id).Nodup →
      RepresentsB (deleteRemainingChildren true el os) (L ++ os.map OldFiber.id) = true := by
  intro os
  induction os with
  | nil => intro el L h hn; simpa [deleteRemainingChildren] using h
  | cons o rest ih =>
    intro el L h hn
    have hassoc : L ++ (o :: rest).map OldFiber.id = (L ++ [o.id]) ++ rest.map OldFiber.id := by
      simp
    rw [hassoc] at hn ⊢
    have h1 : RepresentsB (deleteChild true el o) (L ++ [o.id]) = true := by
      refine representsB_append el L o h ?_
      have hsub : List.Sublist (L ++ [o.id]) ((L ++ [o.id]) ++ rest.map OldFiber.id) :=
        List.sublist_append_left _ _
      exact List.Nodup.sublist hsub hn
    have hstep : deleteRemainingChildren true el (o :: rest)
        = deleteRemainingChildren true (deleteChild true el o) rest := rfl
    rw [hstep]
    exact ih (deleteChild true el o) (L ++ [o.id]) h1 hn

/-- Claim C8: deleteChild in tracking mode appends the deleted child to
the parent effect list in O(1): on an empty list firstEffect and
lastEffect both become the child; otherwise the previous tail is linked
to the child through nextEffect and lastEffect advances; consequently
the represented effect sequence grows by exactly the deleted child at
its end, so deletions appear in the order they were identified, before
anything recorded later. -/
theorem deleteChild_effectList_spec (el : EffectList) (child : OldFiber) :
    (el.lastEffect = none →
      (deleteChild true el child).firstEffect = some child.id ∧
      (deleteChild true el child).lastEffect = some child.id) ∧
    (∀ lastId, el.lastEffect = some lastId →
      (deleteChild true el child).firstEffect = el.firstEffect ∧
      (deleteChild true el child).lastEffect = some child.id ∧
      (lastId ≠ child.id →
        (deleteChild true el child).nextEffect lastId = some child.id)) ∧
    (∀ L, RepresentsB el L = true → (L ++ [child.id]).Nodup →
      RepresentsB (deleteChild true el child) (L ++ [child.id]) = true) := by
  refine ⟨?_, ?_, fun L h hn => representsB_append el L child h hn⟩
  · intro hnone
    unfold deleteChild
    rw [hnone]
    exact ⟨rfl, rfl⟩
  · intro lastId hsome
    unfold deleteChild
    rw [hsome]
    refine ⟨rfl, rfl, fun hne => ?_⟩
    simp [hne]

/-- Witness for C8: deleting a into an empty effect list makes it head
and tail; deleting b afterwards yields the represented sequence
[a, b]. -/
theorem deleteChild_effectList_spec_witness :
    ((deleteChild true EffectList.empty oldA).firstEffect = some oldA.id ∧
      (deleteChild true EffectList.empty oldA).lastEffect = some oldA.id) ∧
    RepresentsB (deleteChild true (deleteChild true EffectList.empty oldA) oldB)
      ([0] ++ [oldB.id]) = true :=
  ⟨(deleteChild_effectList_spec EffectList.empty oldA).1 rfl,
   (deleteChild_effectList_spec (deleteChild true EffectList.empty oldA) oldB).2.2 [0]
      ((deleteChild_effectList_spec EffectList.empty oldA).2.2 [] (by decide) (by decide))
      (by decide)⟩

/- ------------------------------------------------------------------ -/
/- Claim C7: single-element reconciliation                             -/
/- ------------------------------------------------------------------ -/

/-- Scan lemma for reconcileSingleElement: with the non-matching prefix
keys all different from the element key and the first key match at m,
the match decides the result, and the effect sequence grows by the
deleted prefix plus, on a type mismatch, m and everything after it, or,
on a type match, only everything after it. -/
theorem reconcileSingleElement_scan :
    ∀ (pre : List OldFiber) (m : OldFiber) (post : List OldFiber)
      (key : Option String) (ty : String) (el : EffectList) (L : List Nat),
      (∀ x ∈ pre, x.key ≠ key) → m.key = key →
      RepresentsB el L = true →
      (L ++ (pre ++ m :: post).map OldFiber.id).Nodup →
      (m.elementType = some ty →
        reconcileSingleElement true el (pre ++ m :: post) key ty
          = (useFiber m,
             deleteRemainingChildren true (deleteRemainingChildren true el pre) post) ∧
        RepresentsB (reconcileSingleElement true el (pre ++ m :: post) key ty).2
          (L ++ (pre ++ post).map OldFiber.id) = true) ∧
      (m.elementType ≠ some ty →
        reconcileSingleElement true el (pre ++ m :: post) key ty
          = (createFiberFromElement key ty,
             deleteRemainingChildren true (deleteRemainingChildren true el pre) (m :: post)) ∧
        RepresentsB (reconcileSingleElement true el (pre ++ m :: post) key ty).2
          (L ++ (pre ++ m :: post).map OldFiber.id) = true) := by
  intro pre
  induction pre with
  | nil =>
    intro m post key ty el L _ hm hrep hnd
    constructor
    · intro hty
      have heq : reconcileSingleElement true el ([] ++ m :: post) key ty
          = (useFiber m, deleteRemainingChildren true el post) := by
        simp only [List.nil_append, reconcileSingleElement]
        rw [if_pos hm, if_pos hty]
      refine ⟨by simpa [deleteRemainingChildren] using heq, ?_⟩
      rw [heq]
      simp only [List.nil_append]
      refine representsB_deleteRemaining post el L hrep ?_
      have hsub : List.Sublist (L ++ post.map OldFiber.id)
          (L ++ (m :: post).map OldFiber.id) := by
        refine List.Sublist.append_left ?_ L
        simp only [List.map_cons]
        exact List.sublist_cons_self _ _
      exact List.Nodup.sublist hsub (by simpa using hnd)
    · intro hty
      have heq : reconcileSingleElement true el ([] ++ m :: post) key ty
          = (createFiberFromElement key ty,
             deleteRemainingChildren true el (m :: post)) := by
        simp only [List.nil_append, reconcileSingleElement]
        rw [if_pos hm, if_neg hty]
      refine ⟨by simpa [deleteRemainingChildren] using heq, ?_⟩
      rw [heq]
      simp only [List.nil_append]
      exact representsB_deleteRemaining (m :: post) el L hrep (by simpa using hnd)
  | cons p pre₂ ih =>
    intro m post key ty el L hpre hm hrep hnd
    have hp : p.key ≠ key := hpre p (by simp)
    have hstep : reconcileSingleElement true el ((p :: pre₂) ++ m :: post) key ty
        = reconcileSingleElement true (deleteChild true el p) (pre₂ ++ m :: post) key ty := by
      simp only [List.cons_append, reconcileSingleElement]
      rw [if_neg hp]
      rfl
    have hnd₂ : ((L ++ [p.id]) ++ (pre₂ ++ m :: post).map OldFiber.id).Nodup := by
      simpa [List.append_assoc] using hnd
    have hrep₂ : RepresentsB (deleteChild true el p) (L ++ [p.id]) = true := by
      refine representsB_append el L p hrep ?_
      have hsub : List.Sublist (L ++ [p.id])
          ((L ++ [p.id]) ++ (pre₂ ++ m :: post).map OldFiber.id) :=
        List.sublist_append_left _ _
      exact List.Nodup.sublist hsub hnd₂
    have hrec := ih m post key ty (deleteChild true el p) (L ++ [p.id])
      (fun x hx => hpre x (by simp [hx])) hm hrep₂ hnd₂
    constructor
    · intro hty
      obtain ⟨he, hr⟩ := hrec.1 hty
      constructor
      · rw [hstep, he]
        simp [deleteRemainingChildren]
      · rw [hstep]
        have : (L ++ [p.id]) ++ (pre₂ ++ post).map OldFiber.id
            = L ++ ((p :: pre₂) ++ post).map OldFiber.id := by
          simp [List.append_assoc]
        rw [← this]
        exact hr
    · intro hty
      obtain ⟨he, hr⟩ := hrec.2 hty
      constructor
      · rw [hstep, he]
        simp [deleteRemainingChildren]
      · rw [hstep]
        have : (L ++ [p.id]) ++ (pre₂ ++ m :: post).map OldFiber.id
            = L ++ ((p :: pre₂) ++ m :: post).map OldFiber.id := by
          simp [List.append_assoc]
        rw [← this]
        exact hr

/-- Claim C7: reconciling a single element in tracking mode scans the
old siblings in order; the first old child with an equal key decides the
result: on a type mismatch that child and all its later siblings are
deleted and a fresh fiber without alternate is created; on a type match
the child is cloned keeping its alternate link and all its later
siblings are deleted (keyless-mismatch siblings before the match are
deleted as they are passed). -/
theorem reconcileSingleElement_spec (pre : List OldFiber) (m : OldFiber)
    (post : List OldFiber) (key : Option String) (ty : String)
    (hpre : ∀ x ∈ pre, x.key ≠ key) (hm : m.key = key)
    (hnd : ((pre ++ m :: post).map OldFiber.id).Nodup) :
    (m.elementType = some ty →
      (reconcileSingleElement true EffectList.empty (pre ++ m :: post) key ty).1
        = useFiber m ∧
      (reconcileSingleElement true EffectList.empty (pre ++ m :: post) key ty).1.alternate
        = some m ∧
      RepresentsB (reconcileSingleElement true EffectList.empty (pre ++ m :: post) key ty).2
        ((pre ++ post).map OldFiber.id) = true) ∧
    (m.elementType ≠ some ty →
      (reconcileSingleElement true EffectList.empty (pre ++ m :: post) key ty).1
        = createFiberFromElement key ty ∧
      (reconcileSingleElement true EffectList.empty (pre ++ m :: post) key ty).1.alternate
        = none ∧
      RepresentsB (reconcileSingleElement true EffectList.empty (pre ++ m :: post) key ty).2
        ((pre ++ m :: post).map OldFiber.id) = true) := by
  have h := reconcileSingleElement_scan pre m post key ty EffectList.empty []
    hpre hm (by decide) (by simpa using hnd)
  constructor
  · intro hty
    obtain ⟨he, hr⟩ := h.1 hty
    exact ⟨by rw [he], by rw [he]; rfl, by simpa using hr⟩
  · intro hty
    obtain ⟨he, hr⟩ := h.2 hty
    exact ⟨by rw [he], by rw [he]; rfl, by simpa using hr⟩

/-- Witness for C7: previous single child key x type Foo against new
single child key x type Bar — the old child is deleted and a fresh node
with no alternate is created. -/
theorem reconcileSingleElement_spec_witness :
    (reconcileSingleElement true EffectList.empty
        [{ id := 5, key := some "x", elementType := some "Foo",
           tag := .hostComponent, index := 0 }] (some "x") "Bar").1.alternate = none ∧
    RepresentsB (reconcileSingleElement true EffectList.empty
        [{ id := 5, key := some "x", elementType := some "Foo",
           tag := .hostComponent, index := 0 }] (some "x") "Bar").2 [5] = true :=
  ⟨((reconcileSingleElement_spec []
      { id := 5, key := some "x", elementType := some "Foo",
        tag := .hostComponent, index := 0 } [] (some "x") "Bar"
      (by intro x hx; simp at hx) rfl (by decide)).2 (by decide)).2.1,
   by
    have := ((reconcileSingleElement_spec []
      { id := 5, key := some "x", elementType := some "Foo",
        tag := .hostComponent, index := 0 } [] (some "x") "Bar"
      (by intro x hx; simp at hx) rfl (by decide)).2 (by decide)).2.2
    simpa using this⟩

/- ------------------------------------------------------------------ -/
/- Claim C9: identical array reconciles to pure reuse                  -/
/- ------------------------------------------------------------------ -/

/-- The old fiber at a slot matches the new child there: an element
child with the same key and the same concrete type. -/
def matchesSlot (o : OldFiber) (c : NewChild) : Bool :=
  match c with
  | .element k ty => o.key == k && o.elementType == some ty
  | _ => false

/-- The clone chain that a fully matching first pass produces: each old
fiber cloned with its alternate link, indexed consecutively from j. -/
def cloneListFrom : List OldFiber → Nat → List Fiber
  | [], _ => []
  | o :: r, j => { useFiber o with index := j } :: cloneListFrom r (j + 1)

/-- Keys of the clone chain. -/
theorem cloneListFrom_map_key :
    ∀ (olds : List OldFiber) (j : Nat),
      (cloneListFrom olds j).map Fiber.key = olds.map OldFiber.key := by
  intro olds
  induction olds with
  | nil => intro j; rfl
  | cons o r ih => intro j; simp [cloneListFrom, useFiber, ih]

/-- Flags of the clone chain: none set. -/
theorem cloneListFrom_map_flags :
    ∀ (olds : List OldFiber) (j : Nat),
      (cloneListFrom olds j).map Fiber.flags = List.replicate olds.length NoFlags := by
  intro olds
  induction olds with
  | nil => intro j; rfl
  | cons o r ih => intro j; simp [cloneListFrom, useFiber, ih, List.replicate_succ]

/-- Alternates of the clone chain: every old fiber, in order. -/
theorem cloneListFrom_map_alternate :
    ∀ (olds : List OldFiber) (j : Nat),
      (cloneListFrom olds j).map Fiber.alternate = olds.map some := by
  intro olds
  induction olds with
  | nil => intro j; rfl
  | cons o r ih => intro j; simp [cloneListFrom, useFiber, ih]

/-- Indices of the clone chain: consecutive from j. -/
theorem cloneListFrom_map_index :
    ∀ (olds : List OldFiber) (j : Nat),
      (cloneListFrom olds j).map Fiber.index = List.range' j olds.length := by
  intro olds
  induction olds with
  | nil => intro j; rfl
  | cons o r ih => intro j; simp [cloneListFrom, ih, List.range'_succ]

/-- Pointwise matching slots have equal key sequences. -/
theorem zip_all_keys :
    ∀ (olds : List OldFiber) (news : List NewChild),
      olds.length = news.length →
      ((olds.zip news).all fun p => matchesSlot p.1 p.2) = true →
      olds.map OldFiber.key = news.map childKey := by
  intro olds
  induction olds with
  | nil =>
    intro news hlen _
    cases news with
    | nil => rfl
    | cons c r => simp at hlen
  | cons o r ih =>
    intro news hlen hall
    cases news with
    | nil => simp at hlen
    | cons c cr =>
      simp only [List.zip_cons_cons, List.all_cons, Bool.and_eq_true] at hall
      have hmk : o.key = childKey c := by
        cases c with
        | element k ty =>
          have := hall.1
          simp only [matchesSlot, Bool.and_eq_true, beq_iff_eq] at this
          simpa [childKey] using this.1
        | text s => simp [matchesSlot] at hall
        | nullish => simp [matchesSlot] at hall
      simp only [List.map_cons, hmk, List.cons.injEq, true_and]
      exact ih cr (by simpa using hlen) hall.2

/-- First-pass lemma for claim C9: when every slot matches by key and
type and old indices run consecutively from the slot counter, the first
pass consumes everything, cloning each old fiber in place with no
Placement flag and no deletion. -/
theorem reconcileArrayGo_identity :
    ∀ (news : List NewChild) (olds : List OldFiber) (el : EffectList) (j lp : Nat),
      olds.length = news.length →
      ((olds.zip news).all fun p => matchesSlot p.1 p.2) = true →
      olds.map OldFiber.index = List.range' j olds.length →
      lp ≤ j →
      reconcileArrayGo true news olds el j lp = (cloneListFrom olds j, el) := by
  intro news
  induction news with
  | nil =>
    intro olds el j lp hlen _ _ _
    have holds : olds = [] := List.length_eq_zero.mp (by simpa using hlen)
    subst holds
    simp [reconcileArrayGo, deleteRemainingChildren, cloneListFrom]
  | cons c newRest ih =>
    intro olds el j lp hlen hall hidx hlp
    cases olds with
    | nil => simp at hlen
    | cons o oldRest =>
      cases c with
      | text s => simp [List.zip_cons_cons, matchesSlot] at hall
      | nullish => simp [List.zip_cons_cons, matchesSlot] at hall
      | element k ty =>
        simp only [List.zip_cons_cons, List.all_cons, Bool.and_eq_true] at hall
        have hmk : o.key = k ∧ o.elementType = some ty := by
          have := hall.1
          simp only [matchesSlot, Bool.and_eq_true, beq_iff_eq] at this
          exact this
        have hio : o.index = j ∧ oldRest.map OldFiber.index = List.range' (j + 1) oldRest.length := by
          simpa [List.range'_succ] using hidx
        have hrec := ih oldRest el (j + 1) j (by simpa using hlen) hall.2 hio.2 (by omega)
        simp only [reconcileArrayGo]
        rw [if_neg (by omega : ¬ o.index > j)]
        have hslot : updateSlot (some o) (.element k ty) = some (useFiber o) := by
          simp only [updateSlot, updateElement]
          rw [if_pos hmk.1.symm, if_pos hmk.2]
        rw [hslot]
        have hnlt : ¬ o.index < lp := by omega
        have hplace : placeChild true (useFiber o) lp j
            = ({ useFiber o with index := j }, o.index) := by
          simp [placeChild, useFiber, hnlt]
        simp only [useFiber, hplace]
        rw [if_neg (by simp : ¬ (some o = none))]
        rw [hio.1] at hplace
        have hplace₂ := hplace
        simp only [useFiber] at hplace₂
        rw [hplace₂]
        rw [if_neg (by omega : ¬ o.index > j)]
        dsimp only
        rw [hrec]
        simp [cloneListFrom, useFiber, hio.1]

/-- Claim C9: tracking-mode reconciliation of a keyed child array
against an old sibling list with the same keys, same order and same
types records no deletion, sets no Placement flag, reuses every old
fiber as the alternate of the produced node at the same position, and
produces the siblings in the order of the new array. -/
theorem reconcileArray_identity_reuse (olds : List OldFiber) (news : List NewChild)
    (el : EffectList)
    (hlen : olds.length = news.length)
    (hall : ((olds.zip news).all fun p => matchesSlot p.1 p.2) = true)
    (hidx : olds.map OldFiber.index = List.range olds.length) :
    (reconcileChildrenArray true el olds news).2 = el ∧
    (reconcileChildrenArray true el olds news).1.map Fiber.flags
      = List.replicate news.length NoFlags ∧
    (reconcileChildrenArray true el olds news).1.map Fiber.alternate = olds.map some ∧
    (reconcileChildrenArray true el olds news).1.map Fiber.key = news.map childKey ∧
    (reconcileChildrenArray true el olds news).1.map Fiber.index = List.range news.length := by
  have hmain : reconcileChildrenArray true el olds news = (cloneListFrom olds 0, el) := by
    unfold reconcileChildrenArray
    exact reconcileArrayGo_identity news olds el 0 0 hlen hall
      (by rw [hidx, List.range_eq_range']) (Nat.le_refl 0)
  rw [hmain]
  refine ⟨rfl, ?_, ?_, ?_, ?_⟩
  · rw [cloneListFrom_map_flags, hlen]
  · exact cloneListFrom_map_alternate olds 0
  · rw [cloneListFrom_map_key]
    exact zip_all_keys olds news hlen hall
  · rw [cloneListFrom_map_index, ← hlen, List.range_eq_range']

/-- Witness for C9: [a, b, c] against itself. -/
theorem reconcileArray_identity_reuse_witness :
    (reconcileChildrenArray true EffectList.empty [oldA, oldB, oldC]
        [.element (some "a") "T", .element (some "b") "T", .element (some "c") "T"]).2
      = EffectList.empty ∧
    (reconcileChildrenArray true EffectList.empty [oldA, oldB, oldC]
        [.element (some "a") "T", .element (some "b") "T", .element (some "c") "T"]).1.map
        Fiber.alternate = [oldA, oldB, oldC].map some :=
  ⟨(reconcileArray_identity_reuse [oldA, oldB, oldC]
      [.element (some "a") "T", .element (some "b") "T", .element (some "c") "T"]
      EffectList.empty (by decide) (by decide) (by decide)).1,
   (reconcileArray_identity_reuse [oldA, oldB, oldC]
      [.element (some "a") "T", .element (some "b") "T", .element (some "c") "T"]
      EffectList.empty (by decide) (by decide) (by decide)).2.2.1⟩
